import Mathlib

/-
Verification of the power2orc orchestration core (src/main.py).

The program drives two external Aspen simulation models through a
declarative input/output mapping: a Mapping Loader (`load_yaml`), an
Engine Session (`open_aspen` / `set_value` / `get_value` / `close_aspen`),
a Case Runner (`run_case_fresh`) and a Stage Pipeline (the
`power_to_orc` branch of `__main__`).

Python dicts are embedded as association lists with Python-dict lookup
(first matching key) and Python-dict assignment (overwrite in place when
the key exists, append otherwise); dicts built by the program have
pairwise distinct keys.  The external COM engine is embedded as a
deterministic `Model`: a flag for the model file existing on disk, a flag
for COM instantiation succeeding, the variable tree loaded by
`InitFromArchive2`, a deterministic `Run2` transition on trees, and a
flag for whether `Close(False)` raises.  Raised Python exceptions become
`Except` errors; a trace records how many sessions were opened and
closed, which `node.Value` writes happened, and how many `Run2` calls ran.
-/

namespace PowerToOrc

/-- Scalar variable values (numeric case values and harvested outputs). -/
abbrev Value := Int

/-- Python dict lookup `d[n]` / `d.get(n)`: first entry with the key. -/
def dGet? {α : Type} : List (String × α) → String → Option α
  | [], _ => none
  | (k, v) :: rest, n => if k = n then some v else dGet? rest n

/-- The keys of a dict, in order. -/
def dKeys {α : Type} (d : List (String × α)) : List String :=
  d.map Prod.fst

/-- Python dict assignment `d[n] = v`: overwrite in place, else append. -/
def dInsert {α : Type} : List (String × α) → String → α → List (String × α)
  | [], n, v => [(n, v)]
  | (k, w) :: rest, n, v =>
      if k = n then (k, v) :: rest else (k, w) :: dInsert rest n v

/-- Python `d.update(xs)`: assign every entry of `xs` into `d` in order. -/
def dUpdate {α : Type} : List (String × α) → List (String × α) → List (String × α)
  | d, [] => d
  | d, (k, v) :: rest => dUpdate (dInsert d k v) rest

/-! ## Mapping Loader (`load_yaml`, src/main.py lines 54-65) -/

/-- A parsed YAML document: a scalar or a mapping. -/
inductive Yaml : Type
  | leaf (s : String)
  | map (entries : List (String × Yaml))

/-- The YAML configuration source: whether `os.path.isfile` holds for the
path, and what `yaml.safe_load` yields for its contents. -/
structure ConfigSource where
  present : Bool
  parsed : Yaml

/-- The loader's failure taxonomy: `FileNotFoundError` (ConfigNotFound),
`ValueError` for a non-dict document (ConfigMalformed), `KeyError` for a
missing/non-dict `input_paths` (ConfigMissingSection), and `KeyError` for
a present non-dict `output_paths` (ConfigInvalidSection). -/
inductive LoadError : Type
  | configNotFound
  | configMalformed
  | configMissingSection
  | configInvalidSection
deriving DecidableEq

/-- The check `isinstance(data, dict)`. -/
def isMapping : Yaml → Bool
  | .map _ => true
  | .leaf _ => false

/-- The entries of a YAML mapping (`[]` on a scalar). -/
def yamlEntries : Yaml → List (String × Yaml)
  | .map es => es
  | .leaf _ => []

/-- Loader `load_yaml` (src/main.py lines 54-65): check the file exists, parse,
require a dict, require `input_paths` to be a dict, require
`output_paths` (when present) to be a dict, and return the document. -/
def load_yaml (src : ConfigSource) : Except LoadError Yaml :=
  if !src.present then .error .configNotFound
  else match src.parsed with
    | .leaf _ => .error .configMalformed
    | .map entries =>
      match dGet? entries "input_paths" with
      | some (.map _) =>
        match dGet? entries "output_paths" with
        | some (.map _) => .ok (.map entries)
        | some (.leaf _) => .error .configInvalidSection
        | none => .ok (.map entries)
      | some (.leaf _) => .error .configMissingSection
      | none => .error .configMissingSection

/-- Modelled from the spec: "`ConfigMalformed` if the parsed structure is
not a mapping-of-mappings" — a mapping each of whose values is itself a
mapping.  Used only to compare the spec's stated condition with the
condition the code actually tests (`isinstance(data, dict)`). -/
def isMappingOfMappings : Yaml → Bool
  | .map es => es.all (fun kv => isMapping kv.2)
  | .leaf _ => false

/-! ## Engine Session (src/main.py lines 77-104) -/

/-- Failures a run can raise: `FileNotFoundError` from `open_aspen`
(ModelNotFound), a COM `DispatchEx` failure (EngineUnavailable),
`KeyError` for an input name missing from `input_paths`
(UnknownInputName), `RuntimeError` from `set_value` on an unresolvable
path (AddressNotFound), and a `Run2` failure (EngineExecutionFailed). -/
inductive RunError : Type
  | modelNotFound
  | engineUnavailable
  | unknownInputName (name : String)
  | addressNotFound (path : String)
  | engineExecutionFailed
deriving DecidableEq

/-- The external engine bound to one model artifact, as a deterministic
capability: `present` is `os.path.isfile(model_path)`, `comOk` is whether
`DispatchEx("Apwn.Document")` succeeds, `initTree` is the variable tree
`InitFromArchive2` loads from the artifact, `runOk`/`runStep` say whether
`Engine.Run2()` raises on a given tree and which tree it computes, and
`closeOk` is whether `Close(False)` raises. -/
structure Model where
  present : Bool
  comOk : Bool
  initTree : List (String × Value)
  runOk : List (String × Value) → Bool
  runStep : List (String × Value) → List (String × Value)
  closeOk : Bool

/-- Session opening `open_aspen` (lines 77-83): fail if the model file is missing, fail
if the COM engine cannot be instantiated, otherwise a fresh session whose
tree is the one stored in the model artifact.  (The `visible` argument is
a display hint with no effect on the tree and is not modelled.) -/
def open_aspen (m : Model) : Except RunError (List (String × Value)) :=
  if !m.present then .error .modelNotFound
  else if !m.comOk then .error .engineUnavailable
  else .ok m.initTree

/-- Session disposal `close_aspen` (lines 86-90): `aspen.Close(False)` may raise; the
`except Exception: pass` swallows the failure either way. -/
def close_aspen (closeOk : Bool) : Unit :=
  match (if closeOk then Except.ok () else Except.error () : Except Unit Unit) with
  | .ok _ => ()
  | .error _ => ()

/-- Write `set_value` (lines 93-97): `Tree.FindNode(path)` resolves iff the
path is a key of the tree; a `None` node raises `RuntimeError`, otherwise
`node.Value = value` overwrites the entry. -/
def set_value (tree : List (String × Value)) (path : String) (v : Value) :
    Except RunError (List (String × Value)) :=
  if (dGet? tree path).isSome then .ok (dInsert tree path v)
  else .error (.addressNotFound path)

/-- Read `get_value` (lines 100-104): an unresolvable path yields `None`
(absent), never an error; otherwise the node's value. -/
def get_value (tree : List (String × Value)) (path : String) : Option Value :=
  dGet? tree path

/-! ## Case Runner (`run_case_fresh`, src/main.py lines 107-132) -/

/-- One entry of a returned result dict: the provenance copy of the
inputs stored under `"inputs"`, or a harvested scalar (possibly absent). -/
inductive OutVal : Type
  | inputsCopy (d : List (String × Value))
  | scalar (v : Option Value)
deriving DecidableEq

/-- The dict returned by `run_case_fresh`. -/
abbrev ResultSet := List (String × OutVal)

/-- The named-address sections `run_case_fresh` consumes:
`io_map["input_paths"]` and `io_map.get("output_paths", {})`. -/
structure IOMap where
  input_paths : List (String × String)
  output_paths : List (String × String)

/-- Observable engine events of one run: sessions opened, sessions
closed, `node.Value` writes in order, and `Run2` invocations. -/
structure Trace where
  opens : Nat
  closes : Nat
  sets : List (String × Value)
  execs : Nat
deriving DecidableEq

/-- What one `run_case_fresh` call yields: the returned dict or the
raised error, the engine-event trace, and the model artifact afterwards
(`Close(False)` never persists session state back into it). -/
structure RunOutcome where
  result : Except RunError ResultSet
  trace : Trace
  model : Model

/-- The input-setting loop (lines 118-121): for each `(name, val)` of
`inputs` in order, raise `KeyError` if `name` is not in `input_paths`,
else `set_value` at its address.  Returns the loop's outcome together
with the `node.Value` writes it performed. -/
def setInputs : List (String × String) → List (String × Value) →
    List (String × Value) →
    Except RunError (List (String × Value)) × List (String × Value)
  | _, tree, [] => (.ok tree, [])
  | ips, tree, (name, v) :: rest =>
    match dGet? ips name with
    | none => (.error (.unknownInputName name), [])
    | some addr =>
      match set_value tree addr v with
      | .error e => (.error e, [])
      | .ok tree2 =>
        let r := setInputs ips tree2 rest
        (r.1, (addr, v) :: r.2)

/-- The output-collection loop (lines 127-129): starting from
`{"inputs": dict(inputs)}`, assign `out[name] = get_value(aspen, path)`
for every entry of `output_paths` in order. -/
def harvest (tree : List (String × Value)) :
    ResultSet → List (String × String) → ResultSet
  | out, [] => out
  | out, (name, path) :: rest =>
      harvest tree (dInsert out name (.scalar (get_value tree path))) rest

/-- The body of the `try` block of `run_case_fresh` (lines 116-132) on an
open session: set the inputs, run the engine, collect the outputs into a
dict whose `"inputs"` key holds a copy of the input values; the `finally`
closes the session exactly once on every exit path of the block. -/
def runWithSession (m : Model) (io_map : IOMap) (inputs : List (String × Value))
    (tree0 : List (String × Value)) : RunOutcome :=
  match setInputs io_map.input_paths tree0 inputs with
  | (.error e, sets) =>
    let _ := close_aspen m.closeOk
    ⟨.error e, ⟨1, 1, sets, 0⟩, m⟩
  | (.ok tree1, sets) =>
    if m.runOk tree1 then
      let tree2 := m.runStep tree1
      let out := harvest tree2 [("inputs", .inputsCopy inputs)] io_map.output_paths
      let _ := close_aspen m.closeOk
      ⟨.ok out, ⟨1, 1, sets, 1⟩, m⟩
    else
      let _ := close_aspen m.closeOk
      ⟨.error .engineExecutionFailed, ⟨1, 1, sets, 1⟩, m⟩

/-- Case Runner `run_case_fresh` (lines 107-132): open a fresh session (a raised
open failure propagates with no session created), then run the
`try`/`finally` block on it. -/
def run_case_fresh (m : Model) (io_map : IOMap) (inputs : List (String × Value)) :
    RunOutcome :=
  match open_aspen m with
  | .error e => ⟨.error e, ⟨0, 0, [], 0⟩, m⟩
  | .ok tree0 => runWithSession m io_map inputs tree0

/-- The tree the harvesting loop reads: defined when the session opens,
every input sets successfully and `Run2` succeeds, in which case it is
the post-execution tree. -/
def execTree (m : Model) (io_map : IOMap) (inputs : List (String × Value)) :
    Option (List (String × Value)) :=
  (open_aspen m).toOption.bind (fun tree0 =>
    ((setInputs io_map.input_paths tree0 inputs).1).toOption.bind (fun tree1 =>
      if m.runOk tree1 then some (m.runStep tree1) else none))

/-- Copy of `m` with its `Close(False)` fault toggled, leaving every
result-relevant component alone. -/
def withCloseOk (m : Model) (b : Bool) : Model :=
  ⟨m.present, m.comOk, m.initTree, m.runOk, m.runStep, b⟩

/-! ## Stage Pipeline (`extract_for_orc` and the `power_to_orc` branch,
src/main.py lines 135-149 and 187-203) -/

/-- The scalar stored in a result entry.  Every key other than
`"inputs"` in a `run_case_fresh` result holds a `.scalar` (see
`harvest`), so on the entries the pipeline keeps this is exact. -/
def scalarOf : OutVal → Option Value
  | .scalar v => v
  | .inputsCopy _ => none

/-- Line 192, `power_out = {k: v for k, v in power_res.items() if k != "inputs"}`: the stage-A result minus its provenance entry, as a dict of
harvested (possibly absent) scalars. -/
def stripInputsKey (rs : ResultSet) : List (String × Option Value) :=
  (rs.filter (fun kv => kv.1 ≠ "inputs")).map (fun kv => (kv.1, scalarOf kv.2))

/-- The hard-coded extraction spec of `extract_for_orc` (lines 140-142). -/
def orcRequired : List String :=
  ["fgastemp", "fgasmsflow", "fgasco2", "fgasn2", "fgasco", "fgaswater"]

/-- The loop of `extract_for_orc` (lines 143-145) generalized over the
spec list: `orc_in[k] = power_out.get(k)` for each required name, where
`.get` on a missing key and a stored absent value both give absent. -/
def extractSpec (required : List String) (power_out : List (String × Option Value)) :
    List (String × Option Value) :=
  required.map (fun k => (k, (dGet? power_out k).join))

/-- Projection `extract_for_orc` (lines 135-149): project the stage-A outputs
through the fixed required-name list. -/
def extract_for_orc (power_out : List (String × Option Value)) :
    List (String × Option Value) :=
  extractSpec orcRequired power_out

/-- The merge of lines 199-200: `orc_inputs = dict(ORC_CASE)` then
`orc_inputs.update({k: v for k, v in orc_from_power.items() if v is not
None})` — a full copy of the defaults overlaid with every non-absent
projected value. -/
def mergeOrcInputs (defaults : List (String × Value))
    (orc_from_power : List (String × Option Value)) : List (String × Value) :=
  dUpdate defaults
    (orc_from_power.filterMap (fun kv => kv.2.map (fun v => (kv.1, v))))

/-- What the `power_to_orc` branch yields: both stage results (or the
first error raised), plus each stage's engine-event trace. -/
structure PipelineOutcome where
  result : Except RunError (ResultSet × ResultSet)
  traceA : Trace
  traceB : Trace

/-- The trace of a stage that never ran. -/
def emptyTrace : Trace := ⟨0, 0, [], 0⟩

/-- The `power_to_orc` branch of `__main__` (lines 187-203): run the
power model; on success strip the provenance entry, project through
`extract_for_orc`, merge over the user's `ORC_CASE` defaults, and run the
ORC model with the merged inputs.  A raised stage-A error aborts the
script before any stage-B work. -/
def power_to_orc (mPower mOrc : Model) (power_map orc_map : IOMap)
    (power_case orc_case : List (String × Value)) : PipelineOutcome :=
  let ra := run_case_fresh mPower power_map power_case
  match ra.result with
  | .error e => ⟨.error e, ra.trace, emptyTrace⟩
  | .ok power_res =>
    let power_out := stripInputsKey power_res
    let orc_from_power := extract_for_orc power_out
    let orc_inputs := mergeOrcInputs orc_case orc_from_power
    let rb := run_case_fresh mOrc orc_map orc_inputs
    match rb.result with
    | .error e => ⟨.error e, ra.trace, rb.trace⟩
    | .ok orc_res => ⟨.ok (power_res, orc_res), ra.trace, rb.trace⟩

/-! ## Auxiliary definitions for the statements -/

/-- The first input name the setting loop reaches that is missing from
`input_paths`, if any. -/
def firstMissing (ips : List (String × String)) : List (String × Value) → Option String
  | [] => none
  | (name, _) :: rest =>
      if (dGet? ips name).isSome then firstMissing ips rest else some name

/-- The given key maps to a mapping in these entries (the shape the
loader's `isinstance(data[k], dict)` checks demand). -/
def hasMapSection (es : List (String × Yaml)) (key : String) : Bool :=
  match dGet? es key with
  | some (.map _) => true
  | _ => false

/-- The given key is either absent or maps to a mapping (the shape the
loader demands of the optional `output_paths` section). -/
def sectionAbsentOrMap (es : List (String × Yaml)) (key : String) : Bool :=
  match dGet? es key with
  | some (.map _) => true
  | some (.leaf _) => false
  | none => true

/-! ## Concrete test fixtures (used by witnesses and counterexamples) -/

/-- A healthy one-variable engine model: the file exists, COM
instantiation works, the tree holds address `"/A"`, `Run2` always
succeeds and writes `7` to address `"/W"`, closing works. -/
def mFix : Model :=
  ⟨true, true, [("/A", 0), ("/W", 0)], fun _ => true,
    fun t => dInsert t "/W" 7, true⟩

/-- A model whose artifact is missing on disk. -/
def mMissing : Model :=
  ⟨false, true, [], fun _ => true, fun t => t, true⟩

/-- An IOMap with one input name and one resolvable output name. -/
def ioFix : IOMap := ⟨[("a", "/A")], [("w", "/W")]⟩

/-- An IOMap whose only output address does not resolve in `mFix`. -/
def ioGhost : IOMap := ⟨[("a", "/A")], [("ghost", "/NOPE")]⟩

/-- An IOMap that declares an output literally named `"inputs"`. -/
def ioClash : IOMap := ⟨[("a", "/A")], [("inputs", "/W")]⟩

/-! ## Dictionary lemmas -/

theorem dKeys_cons {α : Type} (kv : String × α) (d : List (String × α)) :
    dKeys (kv :: d) = kv.1 :: dKeys d := rfl

theorem dGet?_eq_none_iff {α : Type} (d : List (String × α)) (n : String) :
    dGet? d n = none ↔ n ∉ dKeys d := by
  induction d with
  | nil => simp [dGet?, dKeys]
  | cons kv rest ih =>
    obtain ⟨k, v⟩ := kv
    by_cases hk : k = n
    · subst hk
      simp [dGet?, dKeys]
    · simp [dGet?, dKeys, hk, ih, Ne.symm hk]

theorem dGet?_isSome_iff {α : Type} (d : List (String × α)) (n : String) :
    (dGet? d n).isSome ↔ n ∈ dKeys d := by
  simp [Option.isSome_iff_ne_none, dGet?_eq_none_iff]

theorem dGet?_dInsert {α : Type} (d : List (String × α)) (k n : String) (v : α) :
    dGet? (dInsert d k v) n = if k = n then some v else dGet? d n := by
  induction d with
  | nil => simp [dInsert, dGet?]
  | cons kw rest ih =>
    obtain ⟨k0, w⟩ := kw
    by_cases h0 : k0 = k
    · subst h0
      by_cases hk : k0 = n <;> simp [dInsert, dGet?, hk]
    · by_cases h1 : k0 = n
      · subst h1
        simp [dInsert, dGet?, h0, Ne.symm h0]
      · simp [dInsert, dGet?, h0, h1, ih]

theorem dGet?_append {α : Type} (xs ys : List (String × α)) (n : String) :
    dGet? (xs ++ ys) n =
      match dGet? xs n with
      | some v => some v
      | none => dGet? ys n := by
  induction xs with
  | nil => simp [dGet?]
  | cons kv rest ih =>
    obtain ⟨k, v⟩ := kv
    by_cases hk : k = n
    · simp [dGet?, hk]
    · simp [dGet?, hk, ih]

theorem dGet?_dUpdate {α : Type} (xs : List (String × α)) :
    ∀ (d : List (String × α)) (n : String),
      dGet? (dUpdate d xs) n =
        match dGet? xs.reverse n with
        | some v => some v
        | none => dGet? d n := by
  induction xs with
  | nil => intro d n; simp [dUpdate, dGet?]
  | cons kv rest ih =>
    intro d n
    obtain ⟨k, v⟩ := kv
    rw [show dUpdate d ((k, v) :: rest) = dUpdate (dInsert d k v) rest from rfl,
      ih, List.reverse_cons, dGet?_append]
    cases hr : dGet? rest.reverse n with
    | some w => rfl
    | none =>
      simp only [dGet?_dInsert, dGet?]
      by_cases hk : k = n <;> simp [hk]

theorem dGet?_reverse_of_nodup {α : Type} (xs : List (String × α))
    (h : (dKeys xs).Nodup) (n : String) :
    dGet? xs.reverse n = dGet? xs n := by
  induction xs with
  | nil => rfl
  | cons kv rest ih =>
    obtain ⟨k, v⟩ := kv
    rw [dKeys_cons, List.nodup_cons] at h
    rw [List.reverse_cons, dGet?_append, ih h.2]
    by_cases hk : k = n
    · subst hk
      rw [(dGet?_eq_none_iff rest k).mpr h.1]
      simp [dGet?]
    · cases hr : dGet? rest n with
      | some w => simp [dGet?, hk, hr]
      | none => simp [dGet?, hk, hr]

/-! ## Projection and merge lemmas -/

theorem dGet?_presentEntries_of_none {α : Type} (xs : List (String × Option α))
    (n : String) (h : dGet? xs n = none) :
    dGet? (xs.filterMap (fun kv => kv.2.map (fun v => (kv.1, v)))) n = none := by
  induction xs with
  | nil => rfl
  | cons kv rest ih =>
    obtain ⟨k, ov⟩ := kv
    by_cases hk : k = n
    · rw [dGet?, if_pos hk] at h
      exact absurd h (by simp)
    · rw [dGet?, if_neg hk] at h
      cases ov with
      | none => simpa [List.filterMap_cons] using ih h
      | some v => simp [List.filterMap_cons, dGet?, hk, ih h]

theorem dGet?_presentEntries_of_nodup {α : Type} (xs : List (String × Option α))
    (h : (dKeys xs).Nodup) (n : String) :
    dGet? (xs.filterMap (fun kv => kv.2.map (fun v => (kv.1, v)))) n =
      (dGet? xs n).join := by
  induction xs with
  | nil => rfl
  | cons kv rest ih =>
    obtain ⟨k, ov⟩ := kv
    rw [dKeys_cons, List.nodup_cons] at h
    by_cases hk : k = n
    · subst hk
      cases ov with
      | some v => simp [List.filterMap_cons, dGet?, Option.join]
      | none =>
        have hnone : dGet? rest k = none := (dGet?_eq_none_iff rest k).mpr h.1
        simp [List.filterMap_cons, dGet?,
          dGet?_presentEntries_of_none rest k hnone, Option.join]
    · cases ov with
      | some v => simp [List.filterMap_cons, dGet?, hk, ih h.2]
      | none => simp [List.filterMap_cons, dGet?, hk, ih h.2]

theorem dKeys_presentEntries_sublist {α : Type} (xs : List (String × Option α)) :
    (dKeys (xs.filterMap (fun kv => kv.2.map (fun v => (kv.1, v))))).Sublist
      (dKeys xs) := by
  induction xs with
  | nil => exact List.Sublist.refl _
  | cons kv rest ih =>
    obtain ⟨k, ov⟩ := kv
    cases ov with
    | none => simpa [List.filterMap_cons, dKeys] using ih.cons k
    | some v => simpa [List.filterMap_cons, dKeys] using ih.cons₂ k

theorem dKeys_extractSpec (spec : List String) (po : List (String × Option Value)) :
    dKeys (extractSpec spec po) = spec := by
  rw [extractSpec, dKeys, List.map_map]
  exact List.map_id spec

theorem dGet?_extractSpec (spec : List String) (po : List (String × Option Value))
    (n : String) :
    dGet? (extractSpec spec po) n =
      if n ∈ spec then some ((dGet? po n).join) else none := by
  induction spec with
  | nil => simp [extractSpec, dGet?]
  | cons k rest ih =>
    by_cases hk : k = n
    · subst hk
      simp [extractSpec, dGet?]
    · simp [extractSpec, dGet?, hk, Ne.symm hk] at ih ⊢
      exact ih

theorem dGet?_merge_of_nodup (proj : List (String × Option Value))
    (hproj : (dKeys proj).Nodup) (defaults : List (String × Value)) (n : String) :
    dGet? (mergeOrcInputs defaults proj) n =
      match (dGet? proj n).join with
      | some v => some v
      | none => dGet? defaults n := by
  have hfl : (dKeys (proj.filterMap
      (fun kv => kv.2.map (fun v => (kv.1, v))))).Nodup :=
    hproj.sublist (dKeys_presentEntries_sublist proj)
  rw [mergeOrcInputs, dGet?_dUpdate, dGet?_reverse_of_nodup _ hfl,
    dGet?_presentEntries_of_nodup proj hproj]
  cases hj : (dGet? proj n).join <;> rfl

/-! ## Harvest and input-setting lemmas -/

theorem harvest_not_mem (tree : List (String × Value)) :
    ∀ (ops : List (String × String)) (out : ResultSet) (n : String),
      n ∉ dKeys ops → dGet? (harvest tree out ops) n = dGet? out n := by
  intro ops
  induction ops with
  | nil => intro out n _; rfl
  | cons kv rest ih =>
    intro out n h
    obtain ⟨k, p⟩ := kv
    rw [dKeys_cons, List.mem_cons] at h
    push_neg at h
    rw [show harvest tree out ((k, p) :: rest) =
        harvest tree (dInsert out k (.scalar (get_value tree p))) rest from rfl,
      ih _ n h.2, dGet?_dInsert]
    simp [Ne.symm h.1]

theorem harvest_mem (tree : List (String × Value)) :
    ∀ (ops : List (String × String)) (out : ResultSet) (n p : String),
      (dKeys ops).Nodup → (n, p) ∈ ops →
      dGet? (harvest tree out ops) n = some (.scalar (get_value tree p)) := by
  intro ops
  induction ops with
  | nil => intro out n p _ h; cases h
  | cons kv rest ih =>
    intro out n p hnd h
    obtain ⟨k, q⟩ := kv
    rw [dKeys_cons, List.nodup_cons] at hnd
    rcases List.mem_cons.mp h with heq | hmem
    · obtain ⟨hn, hp⟩ := Prod.mk.injEq .. ▸ heq
      subst hn; subst hp
      rw [show harvest tree out ((n, p) :: rest) =
          harvest tree (dInsert out n (.scalar (get_value tree p))) rest from rfl,
        harvest_not_mem tree rest _ n hnd.1, dGet?_dInsert]
      simp
    · exact ih _ n p hnd.2 hmem

theorem dInsert_isSome_mono {α : Type} (d : List (String × α)) (k a : String)
    (v : α) (h : (dGet? d a).isSome) : (dGet? (dInsert d k v) a).isSome := by
  rw [dGet?_dInsert]
  by_cases hk : k = a <;> simp [hk, h]

theorem setInputs_firstMissing (ips : List (String × String)) :
    ∀ (inputs : List (String × Value)) (tree : List (String × Value)) (n : String),
      (∀ p ∈ inputs, ∀ a, dGet? ips p.1 = some a → (dGet? tree a).isSome) →
      firstMissing ips inputs = some n →
      (setInputs ips tree inputs).1 = .error (.unknownInputName n) := by
  intro inputs
  induction inputs with
  | nil => intro tree n _ hfm; exact absurd hfm (by simp [firstMissing])
  | cons p rest ih =>
    intro tree n hres hfm
    obtain ⟨name, v⟩ := p
    cases hip : dGet? ips name with
    | none =>
      rw [firstMissing, hip] at hfm
      simp at hfm
      rw [setInputs, hip]
      rw [hfm]
    | some addr =>
      rw [firstMissing, hip] at hfm
      simp at hfm
      have htree : (dGet? tree addr).isSome :=
        hres (name, v) (List.mem_cons_self _ _) addr hip
      have hsv : set_value tree addr v = .ok (dInsert tree addr v) := by
        unfold set_value
        rw [if_pos htree]
      simp only [setInputs, hip, hsv]
      exact ih (dInsert tree addr v) n
        (fun q hq a ha => dInsert_isSome_mono tree addr a v (hres q (List.mem_cons_of_mem _ hq) a ha))
        hfm

theorem run_open_err (m : Model) (io : IOMap) (inputs : List (String × Value))
    (e : RunError) (ho : open_aspen m = .error e) :
    run_case_fresh m io inputs = ⟨.error e, ⟨0, 0, [], 0⟩, m⟩ := by
  unfold run_case_fresh
  rw [ho]

theorem run_open_ok (m : Model) (io : IOMap) (inputs : List (String × Value))
    (tree0 : List (String × Value)) (ho : open_aspen m = .ok tree0) :
    run_case_fresh m io inputs = runWithSession m io inputs tree0 := by
  unfold run_case_fresh
  rw [ho]

theorem rws_set_err (m : Model) (io : IOMap) (inputs : List (String × Value))
    (tree0 sets : List (String × Value)) (e : RunError)
    (hsi : setInputs io.input_paths tree0 inputs = (.error e, sets)) :
    runWithSession m io inputs tree0 = ⟨.error e, ⟨1, 1, sets, 0⟩, m⟩ := by
  unfold runWithSession
  rw [hsi]

theorem rws_exec_err (m : Model) (io : IOMap) (inputs : List (String × Value))
    (tree0 tree1 sets : List (String × Value))
    (hsi : setInputs io.input_paths tree0 inputs = (.ok tree1, sets))
    (hr : m.runOk tree1 = false) :
    runWithSession m io inputs tree0 =
      ⟨.error .engineExecutionFailed, ⟨1, 1, sets, 1⟩, m⟩ := by
  unfold runWithSession
  rw [hsi]
  simp [hr]

theorem rws_ok (m : Model) (io : IOMap) (inputs : List (String × Value))
    (tree0 tree1 sets : List (String × Value))
    (hsi : setInputs io.input_paths tree0 inputs = (.ok tree1, sets))
    (hr : m.runOk tree1 = true) :
    runWithSession m io inputs tree0 =
      ⟨.ok (harvest (m.runStep tree1) [("inputs", .inputsCopy inputs)] io.output_paths),
        ⟨1, 1, sets, 1⟩, m⟩ := by
  unfold runWithSession
  rw [hsi]
  simp [hr]

theorem open_aspen_ok (m : Model) (h : (m.present && m.comOk) = true) :
    open_aspen m = .ok m.initTree := by
  obtain ⟨h1, h2⟩ := Bool.and_eq_true_iff.mp h
  unfold open_aspen
  rw [h1, h2]
  rfl

theorem execTree_inv (m : Model) (io : IOMap) (inputs : List (String × Value))
    (t2 : List (String × Value)) (h : execTree m io inputs = some t2) :
    ∃ tree1 sets, open_aspen m = .ok m.initTree ∧
      setInputs io.input_paths m.initTree inputs = (.ok tree1, sets) ∧
      m.runOk tree1 = true ∧ m.runStep tree1 = t2 := by
  unfold execTree at h
  rw [Option.bind_eq_some] at h
  obtain ⟨tree0, h0, h⟩ := h
  rw [Option.bind_eq_some] at h
  obtain ⟨tree1, h1, h⟩ := h
  have ho : open_aspen m = .ok tree0 := by
    unfold open_aspen at h0 ⊢
    by_cases hp : m.present <;> by_cases hc : m.comOk <;>
      simp [hp, hc, Except.toOption] at h0 ⊢ <;> exact h0
  have htree0 : tree0 = m.initTree := by
    unfold open_aspen at ho
    by_cases hp : m.present <;> by_cases hc : m.comOk <;> simp [hp, hc] at ho <;>
      exact ho.symm
  subst htree0
  cases hsi : setInputs io.input_paths m.initTree inputs with
  | mk r sets =>
    rw [hsi] at h1
    cases r with
    | error e => simp [Except.toOption] at h1
    | ok t =>
      simp [Except.toOption] at h1
      subst h1
      by_cases hr : m.runOk t = true
      · rw [if_pos hr] at h
        exact ⟨t, sets, ho, rfl, hr, Option.some.inj h⟩
      · rw [if_neg hr] at h
        cases h

theorem run_model_eq (m : Model) (io : IOMap) (inputs : List (String × Value)) :
    (run_case_fresh m io inputs).model = m := by
  cases ho : open_aspen m with
  | error e => rw [run_open_err m io inputs e ho]
  | ok tree0 =>
    rw [run_open_ok m io inputs tree0 ho]
    cases hsi : setInputs io.input_paths tree0 inputs with
    | mk r sets =>
      cases r with
      | error e => rw [rws_set_err m io inputs tree0 sets e hsi]
      | ok tree1 =>
        cases hr : m.runOk tree1 with
        | false => rw [rws_exec_err m io inputs tree0 tree1 sets hsi hr]
        | true => rw [rws_ok m io inputs tree0 tree1 sets hsi hr]

theorem run_withCloseOk (m : Model) (b : Bool) (io : IOMap)
    (inputs : List (String × Value)) :
    (run_case_fresh (withCloseOk m b) io inputs).result =
      (run_case_fresh m io inputs).result ∧
    (run_case_fresh (withCloseOk m b) io inputs).trace =
      (run_case_fresh m io inputs).trace := by
  have hopen : open_aspen (withCloseOk m b) = open_aspen m := rfl
  cases ho : open_aspen m with
  | error e =>
    rw [run_open_err m io inputs e ho,
      run_open_err (withCloseOk m b) io inputs e (hopen.trans ho)]
    exact ⟨rfl, rfl⟩
  | ok tree0 =>
    rw [run_open_ok m io inputs tree0 ho,
      run_open_ok (withCloseOk m b) io inputs tree0 (hopen.trans ho)]
    cases hsi : setInputs io.input_paths tree0 inputs with
    | mk r sets =>
      cases r with
      | error e =>
        rw [rws_set_err m io inputs tree0 sets e hsi,
          rws_set_err (withCloseOk m b) io inputs tree0 sets e hsi]
        exact ⟨rfl, rfl⟩
      | ok tree1 =>
        cases hr : m.runOk tree1 with
        | false =>
          rw [rws_exec_err m io inputs tree0 tree1 sets hsi hr,
            rws_exec_err (withCloseOk m b) io inputs tree0 tree1 sets hsi hr]
          exact ⟨rfl, rfl⟩
        | true =>
          rw [rws_ok m io inputs tree0 tree1 sets hsi hr,
            rws_ok (withCloseOk m b) io inputs tree0 tree1 sets hsi hr]
          exact ⟨rfl, rfl⟩

/-! ## Claim theorems -/

/-- C1: on every invocation of the Case Runner, the number of session
disposals equals the number of sessions opened, at most one session is
opened, and whenever the session opens (the model file exists and the
engine instantiates) disposal happens exactly once — in particular on the
input-setting, execution and harvesting failure paths, which all open
exactly one session; moreover a failure raised by `Close(False)` itself
is swallowed: toggling it changes neither the run's result nor its
observable engine events.  (When `open_aspen` itself fails no session
exists, so there is nothing to dispose, matching the spec's "no partial
session created".) -/
theorem run_case_fresh_disposal (m : Model) (io : IOMap)
    (inputs : List (String × Value)) :
    (run_case_fresh m io inputs).trace.closes =
      (run_case_fresh m io inputs).trace.opens ∧
    (run_case_fresh m io inputs).trace.opens ≤ 1 ∧
    ((m.present && m.comOk) = true →
      (run_case_fresh m io inputs).trace.closes = 1) ∧
    (∀ b : Bool,
      (run_case_fresh (withCloseOk m b) io inputs).result =
        (run_case_fresh m io inputs).result ∧
      (run_case_fresh (withCloseOk m b) io inputs).trace =
        (run_case_fresh m io inputs).trace) := by
  refine ⟨?_, ?_, ?_, fun b => run_withCloseOk m b io inputs⟩
  · cases ho : open_aspen m with
    | error e => rw [run_open_err m io inputs e ho]
    | ok tree0 =>
      rw [run_open_ok m io inputs tree0 ho]
      cases hsi : setInputs io.input_paths tree0 inputs with
      | mk r sets =>
        cases r with
        | error e => rw [rws_set_err m io inputs tree0 sets e hsi]
        | ok tree1 =>
          cases hr : m.runOk tree1 with
          | false => rw [rws_exec_err m io inputs tree0 tree1 sets hsi hr]
          | true => rw [rws_ok m io inputs tree0 tree1 sets hsi hr]
  · cases ho : open_aspen m with
    | error e =>
      rw [run_open_err m io inputs e ho]
      exact Nat.zero_le 1
    | ok tree0 =>
      rw [run_open_ok m io inputs tree0 ho]
      cases hsi : setInputs io.input_paths tree0 inputs with
      | mk r sets =>
        cases r with
        | error e => rw [rws_set_err m io inputs tree0 sets e hsi]
        | ok tree1 =>
          cases hr : m.runOk tree1 with
          | false => rw [rws_exec_err m io inputs tree0 tree1 sets hsi hr]
          | true => rw [rws_ok m io inputs tree0 tree1 sets hsi hr]
  · intro hup
    rw [run_open_ok m io inputs m.initTree (open_aspen_ok m hup)]
    cases hsi : setInputs io.input_paths m.initTree inputs with
    | mk r sets =>
      cases r with
      | error e => rw [rws_set_err m io inputs m.initTree sets e hsi]
      | ok tree1 =>
        cases hr : m.runOk tree1 with
        | false => rw [rws_exec_err m io inputs m.initTree tree1 sets hsi hr]
        | true => rw [rws_ok m io inputs m.initTree tree1 sets hsi hr]

theorem run_case_fresh_disposal_witness :
    ((mFix.present && mFix.comOk) = true) ∧
    (run_case_fresh mFix ioFix [("a", 5)]).trace.closes = 1 :=
  ⟨by decide, (run_case_fresh_disposal mFix ioFix [("a", 5)]).2.2.1 (by decide)⟩

/-- C7: in the chained pipeline, a stage-A Case Runner failure makes the
whole pipeline fail with that error, and stage B never starts: its trace
records no opened session, no closed session, no variable write and no
execution. -/
theorem stage_a_failure_blocks_stage_b (mP mO : Model) (pm om : IOMap)
    (pc oc : List (String × Value)) (e : RunError)
    (h : (run_case_fresh mP pm pc).result = .error e) :
    power_to_orc mP mO pm om pc oc =
      ⟨.error e, (run_case_fresh mP pm pc).trace, emptyTrace⟩ ∧
    (power_to_orc mP mO pm om pc oc).traceB.opens = 0 := by
  have hmain : power_to_orc mP mO pm om pc oc =
      ⟨.error e, (run_case_fresh mP pm pc).trace, emptyTrace⟩ := by
    simp only [power_to_orc, h]
  refine ⟨hmain, ?_⟩
  rw [hmain]
  rfl

theorem stage_a_failure_blocks_stage_b_witness :
    (run_case_fresh mMissing ioFix [("a", 5)]).result = .error .modelNotFound ∧
    (power_to_orc mMissing mFix ioFix ioFix [("a", 5)] []).traceB.opens = 0 :=
  ⟨rfl, (stage_a_failure_blocks_stage_b mMissing mFix ioFix ioFix [("a", 5)] []
    .modelNotFound rfl).2⟩

/-- C8: the Case Runner is deterministic and leaves the model artifact
untouched (`Close(False)` persists nothing), so running it a second time
with the same model reference, IOMap and input set — against the engine
state left behind by the first run — yields an identical result and an
identical event trace. -/
theorem run_case_fresh_idempotent (m : Model) (io : IOMap)
    (inputs : List (String × Value)) :
    (run_case_fresh (run_case_fresh m io inputs).model io inputs).result =
      (run_case_fresh m io inputs).result ∧
    (run_case_fresh (run_case_fresh m io inputs).model io inputs).trace =
      (run_case_fresh m io inputs).trace := by
  rw [run_model_eq]
  exact ⟨rfl, rfl⟩

/-- C2: the stage-B input set starts from a full copy of the stage-B
defaults and overlays every non-absent projected stage-A value by name:
a present projected value always wins, an absent projected value and a
name outside the extraction spec leave the default in place; on stage-A
outputs `x = 10`, `y` absent, spec `[x, y, z]` and defaults
`y = 1, z = 2`, the merged set is exactly `x = 10, y = 1, z = 2`. -/
theorem merge_precedence (spec : List String)
    (power_out : List (String × Option Value))
    (defaults : List (String × Value)) (hs : spec.Nodup) :
    (∀ n v, n ∈ spec → (dGet? power_out n).join = some v →
      dGet? (mergeOrcInputs defaults (extractSpec spec power_out)) n = some v) ∧
    (∀ n, n ∈ spec → (dGet? power_out n).join = none →
      dGet? (mergeOrcInputs defaults (extractSpec spec power_out)) n =
        dGet? defaults n) ∧
    (∀ n, n ∉ spec →
      dGet? (mergeOrcInputs defaults (extractSpec spec power_out)) n =
        dGet? defaults n) ∧
    (∀ n, dGet? (mergeOrcInputs [("y", 1), ("z", 2)]
        (extractSpec ["x", "y", "z"] [("x", some 10), ("y", none)])) n =
      dGet? [("x", 10), ("y", 1), ("z", 2)] n) := by
  have hnd : (dKeys (extractSpec spec power_out)).Nodup := by
    rw [dKeys_extractSpec]
    exact hs
  have hmerge : ∀ n, dGet? (mergeOrcInputs defaults (extractSpec spec power_out)) n =
      match (dGet? (extractSpec spec power_out) n).join with
      | some v => some v
      | none => dGet? defaults n :=
    fun n => dGet?_merge_of_nodup (extractSpec spec power_out) hnd defaults n
  refine ⟨?_, ?_, ?_, ?_⟩
  · intro n v hn hv
    have hv' : ((dGet? power_out n).bind fun a => a) = some v := hv
    rw [hmerge n, dGet?_extractSpec, if_pos hn]
    simp [Option.join, hv']
  · intro n hn hv
    have hv' : ((dGet? power_out n).bind fun a => a) = none := hv
    rw [hmerge n, dGet?_extractSpec, if_pos hn]
    simp [Option.join, hv']
  · intro n hn
    rw [hmerge n, dGet?_extractSpec, if_neg hn]
    simp [Option.join]
  · have hM : mergeOrcInputs [("y", (1 : Value)), ("z", 2)]
        (extractSpec ["x", "y", "z"] [("x", some 10), ("y", none)]) =
        [("y", 1), ("z", 2), ("x", 10)] := by decide
    intro n
    by_cases h1 : "x" = n
    · subst h1
      decide
    · by_cases h2 : "y" = n
      · subst h2
        decide
      · by_cases h3 : "z" = n
        · subst h3
          decide
        · rw [hM]
          simp [dGet?, h1, h2, h3]

theorem merge_precedence_witness :
    (["p", "q"] : List String).Nodup ∧
    dGet? (mergeOrcInputs [("q", 3)]
      (extractSpec ["p", "q"] [("p", some 10), ("q", none)])) "p" = some 10 :=
  ⟨by decide,
    (merge_precedence ["p", "q"] [("p", some 10), ("q", none)] [("q", 3)]
      (by decide)).1 "p" 10 (by decide) (by decide)⟩

/-- C3 counterexample: with a healthy engine, an input-paths map binding
only `"a"`, and the input set `a = 5` then `bad = 1`, the run does fail
with `UnknownInputName "bad"`, but only after a session has been opened
(one open is traced) and after the engine's `setValue` has run for the
preceding valid input (one write is traced) — refuting "before opening
any session" and "setValue is never called". -/
theorem unknown_input_after_open_cex :
    (run_case_fresh mFix ⟨[("a", "/A")], []⟩ [("a", 5), ("bad", 1)]).result =
      .error (.unknownInputName "bad") ∧
    (run_case_fresh mFix ⟨[("a", "/A")], []⟩ [("a", 5), ("bad", 1)]).trace.opens = 1 ∧
    (run_case_fresh mFix ⟨[("a", "/A")], []⟩ [("a", 5), ("bad", 1)]).trace.sets =
      [("/A", 5)] :=
  ⟨rfl, rfl, rfl⟩

/-- C3 amended: when the session opens and every input name that does
resolve points at an address present in the engine tree, an input set
containing a name absent from `ioMap.inputPaths` makes the run fail with
`UnknownInputName` for the first such name — the session having been
opened first and then disposed, with `setValue` never called for the
missing name itself, the engine never executed, and the miss never a
silent no-op. -/
theorem unknown_input_name_amended (m : Model) (io : IOMap)
    (inputs : List (String × Value)) (n : String)
    (hopen : (m.present && m.comOk) = true)
    (hres : ∀ p ∈ inputs, ∀ a, dGet? io.input_paths p.1 = some a →
      (dGet? m.initTree a).isSome)
    (hfm : firstMissing io.input_paths inputs = some n) :
    (run_case_fresh m io inputs).result = .error (.unknownInputName n) ∧
    (run_case_fresh m io inputs).trace.execs = 0 ∧
    (run_case_fresh m io inputs).trace.opens = 1 ∧
    (run_case_fresh m io inputs).trace.closes = 1 := by
  have ho := open_aspen_ok m hopen
  have hsi1 := setInputs_firstMissing io.input_paths inputs m.initTree n hres hfm
  have hpair : setInputs io.input_paths m.initTree inputs =
      (.error (.unknownInputName n),
        (setInputs io.input_paths m.initTree inputs).2) := by
    rw [← hsi1]
  rw [run_open_ok m io inputs m.initTree ho,
    rws_set_err m io inputs m.initTree _ _ hpair]
  exact ⟨rfl, rfl, rfl, rfl⟩

theorem unknown_input_name_amended_witness :
    (run_case_fresh mFix ⟨[("a", "/A")], []⟩ [("a", 5), ("bad", 1)]).trace.execs = 0 ∧
    (run_case_fresh mFix ⟨[("a", "/A")], []⟩ [("a", 5), ("bad", 1)]).result =
      .error (.unknownInputName "bad") := by
  have h := unknown_input_name_amended mFix ⟨[("a", "/A")], []⟩
    [("a", 5), ("bad", 1)] "bad" (by decide)
    (by
      intro p hp a ha
      rcases List.mem_cons.mp hp with rfl | hp2
      · simp only [dGet?] at ha
        simp at ha
        subst ha
        decide
      · rcases List.mem_cons.mp hp2 with rfl | hp3
        · simp only [dGet?] at ha
          simp at ha
        · cases hp3)
    (by decide)
  exact ⟨h.2.1, h.1⟩

/-- C4: reading an unresolvable address yields absent rather than an
error (`get_value` is total and returns `none` exactly on unresolvable
paths), and in a run that reaches harvesting the result is a success
whose entry for every declared output name with an unresolvable address
is the absent scalar — the miss never fails the run. -/
theorem harvest_absent_no_failure (m : Model) (io : IOMap)
    (inputs : List (String × Value)) (t2 : List (String × Value))
    (hex : execTree m io inputs = some t2)
    (hnd : (dKeys io.output_paths).Nodup) :
    (∀ tree path, dGet? tree path = none → get_value tree path = none) ∧
    (run_case_fresh m io inputs).result =
      .ok (harvest t2 [("inputs", .inputsCopy inputs)] io.output_paths) ∧
    (∀ name path, (name, path) ∈ io.output_paths → dGet? t2 path = none →
      dGet? (harvest t2 [("inputs", .inputsCopy inputs)] io.output_paths) name =
        some (.scalar none)) := by
  obtain ⟨tree1, sets, ho, hsi, hr, hstep⟩ := execTree_inv m io inputs t2 hex
  refine ⟨fun tree path h => h, ?_, ?_⟩
  · rw [run_open_ok m io inputs m.initTree ho,
      rws_ok m io inputs m.initTree tree1 sets hsi hr, hstep]
  · intro name path hmem habs
    rw [harvest_mem t2 io.output_paths _ name path hnd hmem]
    rw [show get_value t2 path = dGet? t2 path from rfl, habs]

theorem harvest_absent_no_failure_witness :
    execTree mFix ioGhost [("a", 5)] = some [("/A", 5), ("/W", 7)] ∧
    (run_case_fresh mFix ioGhost [("a", 5)]).result =
      .ok (harvest [("/A", 5), ("/W", 7)]
        [("inputs", .inputsCopy [("a", 5)])] ioGhost.output_paths) ∧
    dGet? (harvest [("/A", 5), ("/W", 7)]
      [("inputs", .inputsCopy [("a", 5)])] ioGhost.output_paths) "ghost" =
        some (.scalar none) := by
  have h := harvest_absent_no_failure mFix ioGhost [("a", 5)]
    [("/A", 5), ("/W", 7)] (by decide) (by decide)
  exact ⟨by decide, h.2.1, h.2.2 "ghost" "/NOPE" (by decide) (by decide)⟩

/-- C9: the result dict is one shared namespace keyed by strings whose
`"inputs"` entry starts as the provenance copy of the input values; when
`ioMap.outputPaths` itself declares an output named `"inputs"`, the
harvesting loop's assignment overwrites that provenance entry with the
harvested scalar, and only when no such output exists does the returned
dict's `"inputs"` entry still hold the provenance copy. -/
theorem inputs_key_shared_namespace (m : Model) (io : IOMap)
    (inputs : List (String × Value)) (t2 : List (String × Value))
    (hex : execTree m io inputs = some t2)
    (hnd : (dKeys io.output_paths).Nodup) :
    (∀ p, ("inputs", p) ∈ io.output_paths →
      ∀ rs, (run_case_fresh m io inputs).result = .ok rs →
        dGet? rs "inputs" = some (.scalar (get_value t2 p))) ∧
    ("inputs" ∉ dKeys io.output_paths →
      ∀ rs, (run_case_fresh m io inputs).result = .ok rs →
        dGet? rs "inputs" = some (.inputsCopy inputs)) := by
  obtain ⟨tree1, sets, ho, hsi, hr, hstep⟩ := execTree_inv m io inputs t2 hex
  have hres : (run_case_fresh m io inputs).result =
      .ok (harvest t2 [("inputs", .inputsCopy inputs)] io.output_paths) := by
    rw [run_open_ok m io inputs m.initTree ho,
      rws_ok m io inputs m.initTree tree1 sets hsi hr, hstep]
  constructor
  · intro p hp rs hrs
    rw [hres] at hrs
    obtain rfl := (Except.ok.inj hrs).symm
    exact harvest_mem t2 io.output_paths _ "inputs" p hnd hp
  · intro hnotin rs hrs
    rw [hres] at hrs
    obtain rfl := (Except.ok.inj hrs).symm
    rw [harvest_not_mem t2 io.output_paths _ "inputs" hnotin]
    rfl

theorem inputs_key_shared_namespace_witness :
    ∃ rs, (run_case_fresh mFix ioClash [("a", 5)]).result = .ok rs ∧
      dGet? rs "inputs" = some (.scalar (some 7)) := by
  have h := (inputs_key_shared_namespace mFix ioClash [("a", 5)]
    [("/A", 5), ("/W", 7)] (by decide) (by decide)).1 "/W" (by decide)
  have hrs : (run_case_fresh mFix ioClash [("a", 5)]).result =
      .ok (harvest [("/A", 5), ("/W", 7)]
        [("inputs", .inputsCopy [("a", 5)])] ioClash.output_paths) := rfl
  refine ⟨harvest [("/A", 5), ("/W", 7)]
    [("inputs", .inputsCopy [("a", 5)])] ioClash.output_paths, hrs, ?_⟩
  rw [h _ hrs]
  decide

/-- C5 counterexample: the document `{input_paths: "x"}` is not a
mapping-of-mappings (its one value is a scalar), yet the loader raises
`KeyError` for the `input_paths` section (ConfigMissingSection), not the
`ValueError` the spec's ConfigMalformed condition would demand — the
stated conditions overlap and the code resolves the overlap in favour of
the section check. -/
theorem config_malformed_cex :
    isMappingOfMappings (Yaml.map [("input_paths", Yaml.leaf "x")]) = false ∧
    load_yaml ⟨true, Yaml.map [("input_paths", Yaml.leaf "x")]⟩ =
      .error .configMissingSection ∧
    load_yaml ⟨true, Yaml.map [("input_paths", Yaml.leaf "x")]⟩ ≠
      .error .configMalformed := by
  refine ⟨rfl, rfl, ?_⟩
  intro h
  exact LoadError.noConfusion (Except.error.inj h)

/-- C5 amended: the loader's four failure outcomes are distinguishable
and each is raised exactly under its condition, checked in order:
ConfigNotFound iff the source does not exist; ConfigMalformed iff it
exists but the parsed document is not a mapping (not "not a
mapping-of-mappings"); ConfigMissingSection iff the document is a mapping
whose `input_paths` is absent or not a mapping; ConfigInvalidSection iff
`input_paths` is fine but `output_paths` is present and not a mapping. -/
theorem load_yaml_error_taxonomy (src : ConfigSource) :
    (load_yaml src = .error .configNotFound ↔ src.present = false) ∧
    (load_yaml src = .error .configMalformed ↔
      src.present = true ∧ isMapping src.parsed = false) ∧
    (load_yaml src = .error .configMissingSection ↔
      src.present = true ∧ isMapping src.parsed = true ∧
        hasMapSection (yamlEntries src.parsed) "input_paths" = false) ∧
    (load_yaml src = .error .configInvalidSection ↔
      src.present = true ∧ isMapping src.parsed = true ∧
        hasMapSection (yamlEntries src.parsed) "input_paths" = true ∧
        sectionAbsentOrMap (yamlEntries src.parsed) "output_paths" = false) := by
  obtain ⟨pres, parsed⟩ := src
  cases pres with
  | false => simp [load_yaml]
  | true =>
    cases parsed with
    | leaf s => simp [load_yaml, isMapping]
    | map es =>
      cases hin : dGet? es "input_paths" with
      | none =>
        simp [load_yaml, hin, isMapping, yamlEntries, hasMapSection]
      | some y =>
        cases y with
        | leaf s =>
          simp [load_yaml, hin, isMapping, yamlEntries, hasMapSection]
        | map ies =>
          cases hout : dGet? es "output_paths" with
          | none =>
            simp [load_yaml, hin, hout, isMapping, yamlEntries,
              hasMapSection, sectionAbsentOrMap]
          | some z =>
            cases z with
            | leaf t =>
              simp [load_yaml, hin, hout, isMapping, yamlEntries,
                hasMapSection, sectionAbsentOrMap]
            | map oes =>
              simp [load_yaml, hin, hout, isMapping, yamlEntries,
                hasMapSection, sectionAbsentOrMap]

/-- C6 counterexample: a source whose `input_paths` section is the empty
mapping loads successfully, so the Mapping Loader can return an IOMap
whose `inputPaths` is empty — the non-emptiness invariant is not
enforced. -/
theorem empty_input_paths_cex :
    load_yaml ⟨true, Yaml.map [("input_paths", Yaml.map [])]⟩ =
      .ok (Yaml.map [("input_paths", Yaml.map [])]) ∧
    dGet? (yamlEntries (Yaml.map [("input_paths", Yaml.map [])]))
      "input_paths" = some (Yaml.map []) :=
  ⟨rfl, rfl⟩

/-- C6 amended: a successful load returns the parsed document itself,
whose `input_paths` section is guaranteed present and a mapping — but
possibly empty — and whose `output_paths` section, when present, is a
mapping (and may be empty or absent); key uniqueness holds because each
section is a parsed Python dict, not because the loader checks it. -/
theorem load_yaml_sections (src : ConfigSource) (data : Yaml)
    (h : load_yaml src = .ok data) :
    data = src.parsed ∧
    (∃ es, dGet? (yamlEntries data) "input_paths" = some (.map es)) ∧
    (∀ y, dGet? (yamlEntries data) "output_paths" = some y →
      ∃ os, y = .map os) := by
  obtain ⟨pres, parsed⟩ := src
  cases pres with
  | false => exact absurd h (by simp [load_yaml])
  | true =>
    cases parsed with
    | leaf s => exact absurd h (by simp [load_yaml])
    | map es =>
      cases hin : dGet? es "input_paths" with
      | none => exact absurd h (by simp [load_yaml, hin])
      | some y =>
        cases y with
        | leaf s => exact absurd h (by simp [load_yaml, hin])
        | map ies =>
          cases hout : dGet? es "output_paths" with
          | none =>
            have hdata : data = Yaml.map es := by
              have : load_yaml ⟨true, Yaml.map es⟩ = .ok (.map es) := by
                simp [load_yaml, hin, hout]
              rw [this] at h
              exact (Except.ok.inj h).symm
            subst hdata
            refine ⟨rfl, ⟨ies, hin⟩, ?_⟩
            intro y hy
            rw [show yamlEntries (Yaml.map es) = es from rfl, hout] at hy
            cases hy
          | some z =>
            cases z with
            | leaf t => exact absurd h (by simp [load_yaml, hin, hout])
            | map oes =>
              have hdata : data = Yaml.map es := by
                have : load_yaml ⟨true, Yaml.map es⟩ = .ok (.map es) := by
                  simp [load_yaml, hin, hout]
                rw [this] at h
                exact (Except.ok.inj h).symm
              subst hdata
              refine ⟨rfl, ⟨ies, hin⟩, ?_⟩
              intro y hy
              rw [show yamlEntries (Yaml.map es) = es from rfl, hout] at hy
              exact ⟨oes, (Option.some.inj hy).symm⟩

theorem load_yaml_sections_witness :
    load_yaml ⟨true, Yaml.map [("input_paths", Yaml.map [("a", Yaml.leaf "/A")])]⟩ =
      .ok (Yaml.map [("input_paths", Yaml.map [("a", Yaml.leaf "/A")])]) ∧
    ∃ es, dGet? (yamlEntries (Yaml.map
      [("input_paths", Yaml.map [("a", Yaml.leaf "/A")])])) "input_paths" =
        some (.map es) :=
  ⟨rfl, (load_yaml_sections
    ⟨true, Yaml.map [("input_paths", Yaml.map [("a", Yaml.leaf "/A")])]⟩
    (Yaml.map [("input_paths", Yaml.map [("a", Yaml.leaf "/A")])]) rfl).2.1⟩

end PowerToOrc
